import Mathlib

/-!
Shallow embedding of `src/mv.rs` (the blutils `mv` command): the filesystem
is an association list from path strings to byte contents, and the three
program functions `backup`, `mv` and the `main` per-source loop are
translated as filesystem transformers.  Paths are modelled as their
character strings (`Path::display` form), so `format!` concatenation is
list append.
-/

namespace Blutils

/-- A filesystem path, modelled as its character string (the `display()` form
of a Rust `PathBuf`). -/
abbrev FsPath := List Char

/-- File contents, modelled as a list of bytes. -/
abbrev Content := List Nat

/-- The filesystem: an association list from paths to contents.  Lookup takes
the first matching entry, so prepending an entry overwrites. -/
abbrev Fs := List (FsPath × Content)

/-- Read a file's content; `none` when the path does not exist. -/
def fsRead (fs : Fs) (q : FsPath) : Option Content := List.lookup q fs

/-- `Path::new(..).exists()`: whether the path names an existing file. -/
def pathExists (fs : Fs) (q : FsPath) : Bool := (fsRead fs q).isSome

/-- Write (create or overwrite) a file. -/
def fsWrite (fs : Fs) (q : FsPath) (c : Content) : Fs := (q, c) :: fs

/-- Remove a path from the filesystem (effect of a successful `rename` on the
old name). -/
def fsErase (fs : Fs) (q : FsPath) : Fs := fs.filter (fun e => !(e.1 == q))

/-- `fs::copy(src, dst)` with the `Result` discarded, as in `backup` where the
code writes `_ = wrap(fs::copy(p, backup_path), PROGRAM)`: on success the
destination is overwritten with the source's bytes; a failed copy (source
unreadable) changes nothing. -/
def copyQuiet (fs : Fs) (src dst : FsPath) : Fs :=
  match fsRead fs src with
  | some c => fsWrite fs dst c
  | none => fs

/-- `PathBuf::try_exists`.  In this model no I/O fault can occur, so it always
returns `ok` — matching Rust, where a missing file yields `Ok(false)` and only
an I/O fault (e.g. an unreadable parent directory) yields `Err`. -/
def tryExists (fs : Fs) (q : FsPath) : Except Unit Bool :=
  Except.ok (pathExists fs q)

/-- `Result::is_err`. -/
def exceptIsErr {ε α : Type} : Except ε α → Bool
  | Except.error _ => true
  | Except.ok _ => false

/-- The `--backup` argument (`enum Choice` in `mv.rs`); the source keeps the
aliases as distinct variants, compared pairwise at use sites. -/
inductive Choice
  | None
  | Off
  | Numbered
  | T
  | Existing
  | Nil
  | Simple
  | Never
deriving DecidableEq

/-- The `--update` argument (`enum Update` in `mv.rs`); parsed but never
consulted by `backup`/`mv`. -/
inductive Update
  | All
  | None
  | Nonefail
  | Older
deriving DecidableEq

/-- The `-f`/`-i`/`-n` group (`struct DestructiveActions`); parsed but never
consulted by `backup`/`mv`. -/
structure DestructiveActions where
  force : Bool
  interactive : Bool
  no_clobber : Bool
deriving DecidableEq

/-- The parsed command line (`struct Cli` in `mv.rs`). -/
structure Cli where
  source : List FsPath
  destination : FsPath
  backup_choice : Option Choice
  backup : Bool
  debug : Bool
  exchange : Bool
  destructive_actions : DestructiveActions
  no_copy : Bool
  strip_trailing_slashes : Bool
  suffix : Option FsPath
  target_directory : Bool
  no_target_directory : Bool
  update : Option Update
  verbose : Bool
deriving DecidableEq

/-- A `Cli` with every flag off and empty paths; concrete instances in the
theorems below override the fields they need. -/
def defaultCli : Cli :=
  { source := []
    destination := []
    backup_choice := none
    backup := false
    debug := false
    exchange := false
    destructive_actions := ⟨false, false, false⟩
    no_copy := false
    strip_trailing_slashes := false
    suffix := none
    target_directory := false
    no_target_directory := false
    update := none
    verbose := false }

/-- Decimal rendering of a natural number, most significant digit first, with
structural fuel (`fuel > n` suffices since the argument shrinks by `/ 10`).
This is the Lean counterpart of formatting the loop counter with
`format!("{}", i)` in `backup`. -/
def natDigitsAux : Nat → Nat → List Char
  | 0, _ => []
  | fuel + 1, n =>
    if n < 10 then [Nat.digitChar n]
    else natDigitsAux fuel (n / 10) ++ [Nat.digitChar (n % 10)]

/-- Decimal rendering of a natural number (`format!("{}", i)`). -/
def natDigits (n : Nat) : List Char := natDigitsAux (n + 1) n

/-- The candidate backup path probed at index `i`:
`format!("{}{}{}", destination, suffix, i)` with `base = destination ++ suffix`. -/
def cand (base : FsPath) (i : Nat) : FsPath := base ++ natDigits i

/-- The `loop { .. i = i + 1 }` probe in `backup`, searching for a free
candidate path from index `i` up, with explicit fuel.  The source loop is
unbounded; `backup` below passes fuel `fs.length + 1`, which is provably
enough for the loop to stop at a free candidate (see `leastFreeIndex_spec`). -/
def probeFrom (fs : Fs) (base : FsPath) : Nat → Nat → Nat
  | 0, i => i
  | fuel + 1, i =>
    if pathExists fs (cand base i) = true then probeFrom fs base fuel (i + 1)
    else i

/-- The index at which the probing loop in `backup` stops, starting at 0. -/
def leastFreeIndex (fs : Fs) (base : FsPath) : Nat :=
  probeFrom fs base (fs.length + 1) 0

/-- `fn backup(cli: &Cli, p: &PathBuf)` from `mv.rs`, as a filesystem
transformer.  Note two faithful details of the source: the gate tests
`cli.destination.try_exists().is_err()` (not the returned boolean), and every
copy reads from `p` — the *source* path of the move. -/
def backup (cli : Cli) (fs : Fs) (p : FsPath) : Fs :=
  if ((!cli.backup && cli.backup_choice.isNone)
      || exceptIsErr (tryExists fs cli.destination)) = true then fs
  else
    let suffix := cli.suffix.getD ['~']
    let backup_path := cli.destination ++ suffix
    let choice := cli.backup_choice.getD Choice.Existing
    if choice = Choice.Nil ∨ choice = Choice.Existing then
      if pathExists fs backup_path = false then copyQuiet fs p backup_path
      else
        copyQuiet fs p
          (cand (cli.destination ++ suffix)
            (leastFreeIndex fs (cli.destination ++ suffix)))
    else if choice = Choice.Numbered ∨ choice = Choice.T then
      copyQuiet fs p
        (cand (cli.destination ++ suffix)
          (leastFreeIndex fs (cli.destination ++ suffix)))
    else if choice = Choice.Simple ∨ choice = Choice.Never then
      copyQuiet fs p backup_path
    else fs

/-- The `while source_copy.ends_with("/") { source_copy.pop() }` loop in
`fn mv`, with structural fuel; `s.length` steps always suffice since each
`pop` shortens the string. -/
def stripAux : Nat → FsPath → FsPath
  | 0, s => s
  | fuel + 1, s =>
    if s.getLast? = some '/' then stripAux fuel s.dropLast else s

/-- Remove all trailing `/` characters from a source string. -/
def stripTrailingSlashes (s : FsPath) : FsPath := stripAux s.length s

/-- The source-string resolution at the top of `fn mv`: strip trailing slashes
when `strip_trailing_slashes` or `no_target_directory` is set; else append a
`/` when `target_directory` is set and the string does not already end in one;
else pass the string through. -/
def resolveSource (cli : Cli) (p : FsPath) : FsPath :=
  if (cli.strip_trailing_slashes || cli.no_target_directory) = true then
    stripTrailingSlashes p
  else if cli.target_directory = true then
    (if p.getLast? = some '/' then p else p ++ ['/'])
  else p

/-- Whether the string holds an embedded NUL, the case in which
`CString::new(..).unwrap()` in `fn mv` panics. -/
def hasNul (s : FsPath) : Bool := s.contains (Char.ofNat 0)

/-- Errors reported by `wrap` inside `fn mv`. -/
inductive MvError
  | renameFailed (errno : Nat)
  | copyFailed
deriving DecidableEq

/-- Effect of a successful `libc::rename(src, dst)`: the entry moves from
`src` to `dst`. -/
def renameEffect (fs : Fs) (src dst : FsPath) : Fs :=
  match fsRead fs src with
  | some c => fsWrite (fsErase fs src) dst c
  | none => fs

/-- `fn mv(cli: &Cli, p: &PathBuf)` from `mv.rs`.  `renameResult` is the
outcome of the `libc::rename` call, an input oracle because rename success
depends on OS state outside the model (cross-device boundaries, permissions).
Result `none` models a panic: the `.unwrap()` on `CString::new` when the
resolved source string (or the destination) holds an embedded NUL.  Otherwise
the result carries the new filesystem and the error `wrap` reported, if any. -/
def mv (cli : Cli) (fs : Fs) (p : FsPath) (renameResult : Except Nat Unit) :
    Option (Fs × Option MvError) :=
  if (hasNul (resolveSource cli p) || hasNul cli.destination) = true then none
  else
    match renameResult with
    | Except.ok _ =>
      some (renameEffect fs (resolveSource cli p) cli.destination, none)
    | Except.error e =>
      if cli.no_copy = false then
        match fsRead fs p with
        | some c => some (fsWrite fs cli.destination c, none)
        | none => some (fs, some MvError.copyFailed)
      else some (fs, some (MvError.renameFailed e))

/-- The `for p in &cli.source { .. backup(..); mv(..) }` loop of `main`,
threading the filesystem through `backup` then `mv` for each source path.
Each list element pairs a source path with its rename-oracle outcome.  A panic
inside `mv` (result `none`) aborts the whole run: no later element is
processed. -/
def processAll (cli : Cli) : Fs → List (FsPath × Except Nat Unit) → Option Fs
  | fs, [] => some fs
  | fs, (p, r) :: rest =>
    match mv cli (backup cli fs p) p r with
    | none => none
    | some (fs2, _) => processAll cli fs2 rest

/-- Number of trailing `/` characters of a string. -/
def trailingSlashCount (s : FsPath) : Nat :=
  (s.reverse.takeWhile (fun c => c == '/')).length

/-- `i` is the least index whose candidate backup path is free. -/
def IsLeastFreeIndex (fs : Fs) (base : FsPath) (i : Nat) : Prop :=
  pathExists fs (cand base i) = false ∧
  ∀ j, j < i → pathExists fs (cand base j) = true

/-- Decimal decoding step: previous accumulator times ten plus the digit value
of the character. -/
def decStep (acc : Nat) (c : Char) : Nat := acc * 10 + (c.toNat - 48)

/-- Decimal decoding, a left inverse of `natDigits` used to prove it
injective. -/
def decDigits (l : List Char) : Nat := l.foldl decStep 0

/-- Concrete invocation with `-b` (backup requested, default choice) and
destination `d`. -/
def cliBk : Cli := { defaultCli with backup := true, destination := ['d'] }

/-- Concrete invocation with no flags and destination `d`. -/
def cliPlain : Cli := { defaultCli with destination := ['d'] }

/-- Concrete invocation with `--no-copy` and destination `d`. -/
def cliNoCopy : Cli :=
  { defaultCli with destination := ['d'], no_copy := true }

/-- Concrete invocation with `--backup numbered` and destination `d`. -/
def cliNumbered : Cli :=
  { defaultCli with
    backup_choice := some Choice.Numbered
    destination := ['d'] }

/-- Concrete invocation with `--backup simple` and destination `d`. -/
def cliSimple : Cli :=
  { defaultCli with
    backup_choice := some Choice.Simple
    destination := ['d'] }

/-- Concrete invocation with `--target-directory`. -/
def cliTgt : Cli := { defaultCli with target_directory := true }

/-- Filesystem holding destination `d` (bytes `[10]`) and source `s`
(bytes `[20]`). -/
def fsDS : Fs := [(['d'], [10]), (['s'], [20])]

/-- Filesystem holding only source `s` (bytes `[20]`); destination `d` does
not exist. -/
def fsSrcOnly : Fs := [(['s'], [20])]

/-- Filesystem where destination `d`, the bare backup path `d~` and source `s`
all exist. -/
def fsTaken : Fs := [(['d'], [10]), (['d', '~'], [9]), (['s'], [20])]

/-- Filesystem holding only the file `c` (bytes `[7]`). -/
def fsOnlyC : Fs := [(['c'], [7])]

theorem digitChar_toNat : ∀ d, d < 10 → (Nat.digitChar d).toNat = 48 + d := by
  decide

theorem foldl_decStep_natDigitsAux :
    ∀ fuel n init, n < fuel →
      List.foldl decStep init (natDigitsAux fuel n) =
        init * 10 ^ (natDigitsAux fuel n).length + n := by
  intro fuel
  induction fuel with
  | zero => intro n init h; omega
  | succ fuel ih =>
    intro n init h
    by_cases h10 : n < 10
    · simp only [natDigitsAux, if_pos h10, List.foldl_cons, List.foldl_nil,
        List.length_singleton, pow_one, decStep, digitChar_toNat n h10]
      omega
    · have hpos : 0 < n := by omega
      have hdivlt : n / 10 < n := Nat.div_lt_self hpos (by omega)
      have hdiv : n / 10 < fuel := by omega
      simp only [natDigitsAux, if_neg h10, List.foldl_append, List.foldl_cons,
        List.foldl_nil, List.length_append, List.length_singleton]
      rw [ih (n / 10) init hdiv]
      have hmod : n % 10 < 10 := Nat.mod_lt _ (by omega)
      simp only [decStep, digitChar_toNat (n % 10) hmod]
      rw [pow_succ, ← mul_assoc]
      have hdm := Nat.div_add_mod n 10
      generalize init * 10 ^ (natDigitsAux fuel (n / 10)).length = K
      omega

theorem decDigits_natDigits (n : Nat) : decDigits (natDigits n) = n := by
  have h := foldl_decStep_natDigitsAux (n + 1) n 0 (Nat.lt_succ_self n)
  simpa [decDigits, natDigits] using h

theorem natDigits_injective : Function.Injective natDigits :=
  Function.LeftInverse.injective decDigits_natDigits

theorem cand_injective (base : FsPath) : Function.Injective (cand base) := by
  intro i j h
  exact natDigits_injective (List.append_cancel_left h)

theorem pathExists_iff_mem (fs : Fs) (q : FsPath) :
    pathExists fs q = true ↔ q ∈ fs.map Prod.fst := by
  induction fs with
  | nil => simp [pathExists, fsRead, List.lookup]
  | cons e rest ih =>
    rcases e with ⟨k, v⟩
    by_cases h : q = k
    · subst h
      simp [pathExists, fsRead, List.lookup]
    · have hbeq : (q == k) = false := beq_eq_false_iff_ne.mpr h
      simp only [pathExists, fsRead, List.lookup, hbeq, List.map_cons,
        List.mem_cons]
      rw [← fsRead, ← pathExists, ih]
      simp [h]

theorem exists_free_le (fs : Fs) (base : FsPath) :
    ∃ j, j ≤ fs.length ∧ pathExists fs (cand base j) = false := by
  by_contra hcon
  push_neg at hcon
  have hall : ∀ j, j ≤ fs.length → pathExists fs (cand base j) = true := by
    intro j hj
    have := hcon j hj
    revert this
    cases pathExists fs (cand base j) <;> simp
  have hsub : (Finset.range (fs.length + 1)).image (cand base) ⊆
      (fs.map Prod.fst).toFinset := by
    intro q hq
    rcases Finset.mem_image.mp hq with ⟨j, hj, rfl⟩
    rw [List.mem_toFinset]
    exact (pathExists_iff_mem fs _).mp (hall j (Nat.lt_succ_iff.mp (Finset.mem_range.mp hj)))
  have hcard := Finset.card_le_card hsub
  rw [Finset.card_image_of_injective _ (cand_injective base),
    Finset.card_range] at hcard
  have hle : (fs.map Prod.fst).toFinset.card ≤ (fs.map Prod.fst).length :=
    List.toFinset_card_le _
  rw [List.length_map] at hle
  omega

theorem probeFrom_below_taken (fs : Fs) (base : FsPath) :
    ∀ fuel i k, i ≤ k → k < probeFrom fs base fuel i →
      pathExists fs (cand base k) = true := by
  intro fuel
  induction fuel with
  | zero =>
    intro i k hik hk
    simp only [probeFrom] at hk
    omega
  | succ fuel ih =>
    intro i k hik hk
    simp only [probeFrom] at hk
    by_cases hc : pathExists fs (cand base i) = true
    · rw [if_pos hc] at hk
      by_cases hki : k = i
      · subst hki; exact hc
      · exact ih (i + 1) k (by omega) hk
    · rw [if_neg hc] at hk
      omega

theorem probeFrom_finds_free (fs : Fs) (base : FsPath) :
    ∀ fuel i, (∃ j, j < fuel ∧ pathExists fs (cand base (i + j)) = false) →
      pathExists fs (cand base (probeFrom fs base fuel i)) = false := by
  intro fuel
  induction fuel with
  | zero =>
    rintro i ⟨j, hj, _⟩
    omega
  | succ fuel ih =>
    rintro i ⟨j, hj, hfree⟩
    simp only [probeFrom]
    by_cases hc : pathExists fs (cand base i) = true
    · rw [if_pos hc]
      apply ih (i + 1)
      have hj0 : j ≠ 0 := by
        rintro rfl
        rw [Nat.add_zero] at hfree
        rw [hc] at hfree
        exact absurd hfree (by simp)
      refine ⟨j - 1, by omega, ?_⟩
      rw [show i + 1 + (j - 1) = i + j by omega]
      exact hfree
    · rw [if_neg hc]
      revert hc
      cases pathExists fs (cand base i) <;> simp

/-- The probing loop of `backup`, run with fuel `fs.length + 1` from index 0,
stops at the least index whose candidate path is free: the fuel is provably
sufficient, so the unbounded source loop terminates there. -/
theorem leastFreeIndex_spec (fs : Fs) (base : FsPath) :
    IsLeastFreeIndex fs base (leastFreeIndex fs base) := by
  constructor
  · apply probeFrom_finds_free
    obtain ⟨j, hj, hfree⟩ := exists_free_le fs base
    exact ⟨j, by omega, by simpa using hfree⟩
  · intro k hk
    exact probeFrom_below_taken fs base (fs.length + 1) 0 k (Nat.zero_le k) hk

theorem fsRead_fsWrite (fs : Fs) (q r : FsPath) (c : Content) :
    fsRead (fsWrite fs q c) r = if r = q then some c else fsRead fs r := by
  by_cases h : r = q
  · subst h
    simp [fsRead, fsWrite, List.lookup]
  · have hbeq : (r == q) = false := beq_eq_false_iff_ne.mpr h
    simp [fsRead, fsWrite, List.lookup, hbeq, h]

theorem backup_gate_false (cli : Cli) (fs : Fs)
    (hreq : cli.backup = true ∨ cli.backup_choice.isSome = true) :
    ((!cli.backup && cli.backup_choice.isNone)
      || exceptIsErr (tryExists fs cli.destination)) = false := by
  have hok : exceptIsErr (tryExists fs cli.destination) = false := rfl
  rw [hok, Bool.or_false]
  rcases hreq with h | h
  · simp [h]
  · cases hbc : cli.backup_choice with
    | none => rw [hbc] at h; simp at h
    | some c => simp

theorem stripAux_spec :
    ∀ fuel (s : FsPath), s.length ≤ fuel →
      (∃ k, s = stripAux fuel s ++ List.replicate k '/') ∧
      (stripAux fuel s).getLast? ≠ some '/' := by
  intro fuel
  induction fuel with
  | zero =>
    intro s hs
    have hnil : s = [] := List.length_eq_zero.mp (by omega)
    subst hnil
    exact ⟨⟨0, rfl⟩, by simp [stripAux]⟩
  | succ fuel ih =>
    intro s hs
    by_cases h : s.getLast? = some '/'
    · have hdecomp : s.dropLast ++ ['/'] = s :=
        List.dropLast_append_getLast? '/' (Option.mem_def.mpr h)
      have hlen : s.dropLast.length ≤ fuel := by
        rw [List.length_dropLast]
        have hne : s ≠ [] := by
          rintro rfl
          simp at h
        have : 0 < s.length := List.length_pos.mpr hne
        omega
      obtain ⟨⟨k, hk⟩, hlast⟩ := ih s.dropLast hlen
      refine ⟨⟨k + 1, ?_⟩, ?_⟩
      · simp only [stripAux, if_pos h]
        rw [List.replicate_succ', ← List.append_assoc, ← hk, hdecomp]
      · simp only [stripAux, if_pos h]
        exact hlast
    · simp only [stripAux, if_neg h]
      exact ⟨⟨0, by simp⟩, h⟩

theorem backup_requested_eq (cli : Cli) (fs : Fs) (p : FsPath)
    (hreq : cli.backup = true ∨ cli.backup_choice.isSome = true) :
    backup cli fs p =
      (if cli.backup_choice.getD Choice.Existing = Choice.Nil ∨
          cli.backup_choice.getD Choice.Existing = Choice.Existing then
        if pathExists fs (cli.destination ++ cli.suffix.getD ['~']) = false then
          copyQuiet fs p (cli.destination ++ cli.suffix.getD ['~'])
        else
          copyQuiet fs p
            (cand (cli.destination ++ cli.suffix.getD ['~'])
              (leastFreeIndex fs (cli.destination ++ cli.suffix.getD ['~'])))
      else if cli.backup_choice.getD Choice.Existing = Choice.Numbered ∨
          cli.backup_choice.getD Choice.Existing = Choice.T then
        copyQuiet fs p
          (cand (cli.destination ++ cli.suffix.getD ['~'])
            (leastFreeIndex fs (cli.destination ++ cli.suffix.getD ['~'])))
      else if cli.backup_choice.getD Choice.Existing = Choice.Simple ∨
          cli.backup_choice.getD Choice.Existing = Choice.Never then
        copyQuiet fs p (cli.destination ++ cli.suffix.getD ['~'])
      else fs) := by
  have hgate := backup_gate_false cli fs hreq
  unfold backup
  rw [if_neg (by simp [hgate])]

/-- Claim C1 (code bug, evaluation at the failing input): with backup
requested (`-b`), destination `d` existing with bytes `[10]` and source `s`
with bytes `[20]`, the file the `backup` function creates at the computed
backup path `d~` holds the bytes of the *source* path, not the current bytes
of the destination — the source line `fs::copy(p, backup_path)` copies from
`p`, the source of the move, contradicting the claim (and the spec's
"defensive copy of the current destination"). -/
theorem backup_copies_source_not_destination :
    fsRead fsDS ['d'] = some [10] ∧
    fsRead (backup cliBk fsDS ['s']) ['d', '~'] = some [20] ∧
    ([20] : Content) ≠ [10] := by decide

/-- Claim C2 (code bug, evaluation at the failing input): with backup
requested (`-b`) but the destination `d` *not* existing, `backup`
nevertheless creates a backup file at `d~`.  The source gate tests
`cli.destination.try_exists().is_err()`, which is false for a missing file
(`try_exists` returns `Ok(false)`), so — contrary to the claim, the spec's
invariant, and the code's own comment "Checking for options and if the file
exists" — the backup is not skipped when the destination does not exist. -/
theorem backup_runs_without_destination :
    pathExists fsSrcOnly ['d'] = false ∧
    pathExists (backup cliBk fsSrcOnly ['s']) ['d', '~'] = true := by decide

/-- Claim C3 (confirmed): when the atomic rename fails and `--no-copy` is not
set, `mv` performs a whole-file copy of the source `p` to the destination
(overwriting it), reports no error, and the source file still exists
afterwards with its content intact — the fallback is a copy, not a
copy-then-delete. -/
theorem mv_fallback_copies_and_keeps_source (cli : Cli) (fs : Fs) (p : FsPath)
    (e : Nat) (c : Content)
    (hnc : cli.no_copy = false)
    (hsrc : fsRead fs p = some c)
    (hs : hasNul (resolveSource cli p) = false)
    (hd : hasNul cli.destination = false) :
    mv cli fs p (Except.error e) = some (fsWrite fs cli.destination c, none) ∧
    fsRead (fsWrite fs cli.destination c) cli.destination = some c ∧
    fsRead (fsWrite fs cli.destination c) p = some c := by
  refine ⟨?_, ?_, ?_⟩
  · simp [mv, hs, hd, hnc, hsrc]
  · rw [fsRead_fsWrite, if_pos rfl]
  · rw [fsRead_fsWrite]
    by_cases hpd : p = cli.destination
    · rw [if_pos hpd]
    · rw [if_neg hpd]
      exact hsrc

/-- Witness for C3: a rename failure (errno 18, `EXDEV`) with source `s`
(bytes `[20]`) and destination `d` absent from the filesystem; the fallback
copies `s` to `d` and `s` survives. -/
theorem mv_fallback_copies_and_keeps_source_witness :
    mv cliPlain fsSrcOnly ['s'] (Except.error 18) =
      some (fsWrite fsSrcOnly cliPlain.destination [20], none) ∧
    fsRead (fsWrite fsSrcOnly cliPlain.destination [20]) cliPlain.destination =
      some [20] ∧
    fsRead (fsWrite fsSrcOnly cliPlain.destination [20]) ['s'] = some [20] :=
  mv_fallback_copies_and_keeps_source cliPlain fsSrcOnly ['s'] 18 [20]
    (by decide) (by decide) (by decide) (by decide)

/-- Claim C4 (confirmed): when the atomic rename fails and `--no-copy` is
set, `mv` performs no copy — the filesystem is returned unchanged, so neither
the destination content nor the source file is touched — and the original
rename failure is the reported error. -/
theorem mv_no_copy_propagates_rename_error (cli : Cli) (fs : Fs) (p : FsPath)
    (e : Nat)
    (hnc : cli.no_copy = true)
    (hs : hasNul (resolveSource cli p) = false)
    (hd : hasNul cli.destination = false) :
    mv cli fs p (Except.error e) =
      some (fs, some (MvError.renameFailed e)) := by
  simp [mv, hs, hd, hnc]

/-- Witness for C4: a rename failure (errno 18) under `--no-copy` leaves the
filesystem untouched and reports the rename error. -/
theorem mv_no_copy_propagates_rename_error_witness :
    mv cliNoCopy fsSrcOnly ['s'] (Except.error 18) =
      some (fsSrcOnly, some (MvError.renameFailed 18)) :=
  mv_no_copy_propagates_rename_error cliNoCopy fsSrcOnly ['s'] 18
    (by decide) (by decide) (by decide)

/-- Claim C5 (confirmed): with backup requested and effective choice
`Existing` (or its alias `Nil`), if the bare path `destination ++ suffix`
does not exist the backup lands exactly there; otherwise it lands at
`destination ++ suffix ++ i` for the least `i ≥ 0` whose path does not
exist — no free lower index is ever skipped. -/
theorem backup_existing_placement (cli : Cli) (fs : Fs) (p : FsPath)
    (hreq : cli.backup = true ∨ cli.backup_choice.isSome = true)
    (hch : cli.backup_choice.getD Choice.Existing = Choice.Existing ∨
      cli.backup_choice.getD Choice.Existing = Choice.Nil) :
    (pathExists fs (cli.destination ++ cli.suffix.getD ['~']) = false →
      backup cli fs p =
        copyQuiet fs p (cli.destination ++ cli.suffix.getD ['~'])) ∧
    (pathExists fs (cli.destination ++ cli.suffix.getD ['~']) = true →
      backup cli fs p =
        copyQuiet fs p
          (cand (cli.destination ++ cli.suffix.getD ['~'])
            (leastFreeIndex fs (cli.destination ++ cli.suffix.getD ['~']))) ∧
      IsLeastFreeIndex fs (cli.destination ++ cli.suffix.getD ['~'])
        (leastFreeIndex fs (cli.destination ++ cli.suffix.getD ['~']))) := by
  rw [backup_requested_eq cli fs p hreq, if_pos hch.symm]
  constructor
  · intro hfree
    rw [if_pos hfree]
  · intro htaken
    rw [if_neg (by simp [htaken])]
    exact ⟨rfl, leastFreeIndex_spec fs _⟩

/-- Witness for C5: `-b` with destination `d`, the bare backup path `d~`
already taken and `d~0` free; the backup lands at the least free index. -/
theorem backup_existing_placement_witness :
    backup cliBk fsTaken ['s'] =
      copyQuiet fsTaken ['s']
        (cand (cliBk.destination ++ cliBk.suffix.getD ['~'])
          (leastFreeIndex fsTaken
            (cliBk.destination ++ cliBk.suffix.getD ['~']))) ∧
    IsLeastFreeIndex fsTaken (cliBk.destination ++ cliBk.suffix.getD ['~'])
      (leastFreeIndex fsTaken (cliBk.destination ++ cliBk.suffix.getD ['~'])) :=
  (backup_existing_placement cliBk fsTaken ['s'] (Or.inl (by decide))
    (Or.inl (by decide))).2 (by decide)

/-- Claim C6 (confirmed): with backup requested and effective choice
`Numbered` (or its alias `T`), the backup always lands at
`destination ++ suffix ++ i` for the least `i ≥ 0` whose path does not
exist, regardless of whether the bare `destination ++ suffix` path is
free. -/
theorem backup_numbered_placement (cli : Cli) (fs : Fs) (p : FsPath)
    (hreq : cli.backup = true ∨ cli.backup_choice.isSome = true)
    (hch : cli.backup_choice.getD Choice.Existing = Choice.Numbered ∨
      cli.backup_choice.getD Choice.Existing = Choice.T) :
    backup cli fs p =
      copyQuiet fs p
        (cand (cli.destination ++ cli.suffix.getD ['~'])
          (leastFreeIndex fs (cli.destination ++ cli.suffix.getD ['~']))) ∧
    IsLeastFreeIndex fs (cli.destination ++ cli.suffix.getD ['~'])
      (leastFreeIndex fs (cli.destination ++ cli.suffix.getD ['~'])) := by
  rw [backup_requested_eq cli fs p hreq,
    if_neg (by rcases hch with h | h <;> rw [h] <;> decide),
    if_pos hch]
  exact ⟨rfl, leastFreeIndex_spec fs _⟩

/-- Witness for C6: `--backup numbered` with destination `d`, bare backup path
`d~` free; the backup still lands at the least free numbered index. -/
theorem backup_numbered_placement_witness :
    backup cliNumbered fsDS ['s'] =
      copyQuiet fsDS ['s']
        (cand (cliNumbered.destination ++ cliNumbered.suffix.getD ['~'])
          (leastFreeIndex fsDS
            (cliNumbered.destination ++ cliNumbered.suffix.getD ['~']))) ∧
    IsLeastFreeIndex fsDS
      (cliNumbered.destination ++ cliNumbered.suffix.getD ['~'])
      (leastFreeIndex fsDS
        (cliNumbered.destination ++ cliNumbered.suffix.getD ['~'])) :=
  backup_numbered_placement cliNumbered fsDS ['s'] (Or.inr (by decide))
    (Or.inl (by decide))

/-- Claim C7 (confirmed): with backup requested and effective choice `Simple`
(or its alias `Never`), the backup is always written to exactly
`destination ++ suffix`, with no numbered probing, overwriting any prior
backup there: afterwards that path holds the bytes the copied file had. -/
theorem backup_simple_placement (cli : Cli) (fs : Fs) (p : FsPath)
    (hreq : cli.backup = true ∨ cli.backup_choice.isSome = true)
    (hch : cli.backup_choice.getD Choice.Existing = Choice.Simple ∨
      cli.backup_choice.getD Choice.Existing = Choice.Never) :
    backup cli fs p =
      copyQuiet fs p (cli.destination ++ cli.suffix.getD ['~']) ∧
    ∀ c, fsRead fs p = some c →
      fsRead (backup cli fs p) (cli.destination ++ cli.suffix.getD ['~']) =
        some c := by
  have heq : backup cli fs p =
      copyQuiet fs p (cli.destination ++ cli.suffix.getD ['~']) := by
    rw [backup_requested_eq cli fs p hreq,
      if_neg (by rcases hch with h | h <;> rw [h] <;> decide),
      if_neg (by rcases hch with h | h <;> rw [h] <;> decide),
      if_pos hch]
  refine ⟨heq, ?_⟩
  intro c hc
  rw [heq]
  simp only [copyQuiet, hc]
  rw [fsRead_fsWrite, if_pos rfl]

/-- Witness for C7: `--backup simple` with destination `d` and a prior backup
already at `d~`; the new backup overwrites `d~` with the copied bytes. -/
theorem backup_simple_placement_witness :
    backup cliSimple fsTaken ['s'] =
      copyQuiet fsTaken ['s']
        (cliSimple.destination ++ cliSimple.suffix.getD ['~']) ∧
    fsRead (backup cliSimple fsTaken ['s'])
      (cliSimple.destination ++ cliSimple.suffix.getD ['~']) = some [20] :=
  ⟨(backup_simple_placement cliSimple fsTaken ['s'] (Or.inr (by decide))
      (Or.inl (by decide))).1,
   (backup_simple_placement cliSimple fsTaken ['s'] (Or.inr (by decide))
      (Or.inl (by decide))).2 [20] (by decide)⟩

/-- Claim C10 (confirmed): over any (finite, by construction) filesystem the
index-probing loop of the `Existing` and `Numbered` backup choices stops —
the fuel `fs.length + 1` that `backup` passes to `probeFrom` is provably
sufficient, so the unbounded source loop terminates — and it stops exactly at
the least index `i ≥ 0` such that `destination ++ suffix ++ i` (here
`cand base i` with `base` the destination-plus-suffix string) does not
exist. -/
theorem probing_terminates_at_least_free_index (fs : Fs) (base : FsPath) :
    pathExists fs (cand base (leastFreeIndex fs base)) = false ∧
    ∀ j, j < leastFreeIndex fs base → pathExists fs (cand base j) = true := by
  exact leastFreeIndex_spec fs base

/-- Claim C8 counterexample: the claim says that in target-directory mode the
resolved string ends with *exactly one* trailing `/`.  For the source string
`a//`, which already ends with a slash, the resolver appends nothing and
returns `a//`, which ends with two trailing slashes, not one. -/
theorem resolveSource_target_directory_two_slashes :
    resolveSource cliTgt ['a', '/', '/'] = ['a', '/', '/'] ∧
    trailingSlashCount (resolveSource cliTgt ['a', '/', '/']) = 2 ∧
    trailingSlashCount (resolveSource cliTgt ['a', '/', '/']) ≠ 1 := by decide

/-- Claim C8 as amended: the resolver applies exactly one transformation,
first match wins.  If `strip-trailing-slashes` or `no-target-directory` is
set, all trailing `/` characters are removed (the result is the input minus a
trailing run of slashes, and has no trailing slash).  Else if
`target-directory` is set, a single `/` is appended only when the string does
not already end with one, so the result ends with *at least* one trailing
`/` (not always exactly one).  Else the string passes through unchanged. -/
theorem resolveSource_spec (cli : Cli) (p : FsPath) :
    ((cli.strip_trailing_slashes || cli.no_target_directory) = true →
      resolveSource cli p = stripTrailingSlashes p ∧
      (∃ k, p = resolveSource cli p ++ List.replicate k '/') ∧
      (resolveSource cli p).getLast? ≠ some '/') ∧
    ((cli.strip_trailing_slashes || cli.no_target_directory) = false →
      cli.target_directory = true →
      resolveSource cli p =
        (if p.getLast? = some '/' then p else p ++ ['/']) ∧
      (resolveSource cli p).getLast? = some '/') ∧
    ((cli.strip_trailing_slashes || cli.no_target_directory) = false →
      cli.target_directory = false →
      resolveSource cli p = p) := by
  refine ⟨?_, ?_, ?_⟩
  · intro h
    have hres : resolveSource cli p = stripTrailingSlashes p := by
      unfold resolveSource
      rw [if_pos h]
    obtain ⟨hdecomp, hlast⟩ :=
      stripAux_spec p.length p (le_refl p.length)
    rw [hres]
    exact ⟨rfl, hdecomp, hlast⟩
  · intro h1 h2
    have hres : resolveSource cli p =
        (if p.getLast? = some '/' then p else p ++ ['/']) := by
      unfold resolveSource
      rw [if_neg (by simp [h1]), if_pos h2]
    refine ⟨hres, ?_⟩
    rw [hres]
    by_cases hp : p.getLast? = some '/'
    · rw [if_pos hp]
      exact hp
    · rw [if_neg hp]
      exact List.getLast?_concat p
  · intro h1 h2
    unfold resolveSource
    rw [if_neg (by simp [h1]), if_neg (by simp [h2])]

/-- Witness for the amended C8: in target-directory mode the source `a` gets
one slash appended, and the counterexample string `a//` passes through with
its trailing slash intact. -/
theorem resolveSource_spec_witness :
    resolveSource cliTgt ['a'] =
      (if (['a'] : FsPath).getLast? = some '/' then (['a'] : FsPath)
       else ['a'] ++ ['/']) ∧
    (resolveSource cliTgt ['a']).getLast? = some '/' :=
  (resolveSource_spec cliTgt ['a']).2.1 (by decide) (by decide)

/-- Claim C9 counterexample: the claim says a source path with an embedded
NUL fails for that path only, processing continuing with the later source
paths.  In the code `CString::new(..).unwrap()` panics instead, aborting the
whole run: with sources `a<NUL>` then `c`, the batch result is `none`
(aborted) — the later source `c` is never processed, so no filesystem state
at all is produced. -/
theorem processAll_nul_aborts_batch :
    hasNul (resolveSource cliPlain ['a', Char.ofNat 0]) = true ∧
    processAll cliPlain fsOnlyC
      [(['a', Char.ofNat 0], Except.ok ()), (['c'], Except.ok ())] =
      none := by decide

/-- Claim C9 as amended: a source path whose resolved string holds an
embedded NUL makes `mv` panic (`CString::new(..).unwrap()`), which aborts the
entire invocation at that source path: the batch produces no result and no
subsequent source path is processed. -/
theorem processAll_nul_aborts (cli : Cli) (fs : Fs) (p : FsPath)
    (r : Except Nat Unit) (rest : List (FsPath × Except Nat Unit))
    (h : hasNul (resolveSource cli p) = true) :
    processAll cli fs ((p, r) :: rest) = none := by
  have hmv : mv cli (backup cli fs p) p r = none := by
    unfold mv
    rw [if_pos (by simp [h])]
  simp only [processAll, hmv]

/-- Witness for the amended C9: the concrete two-source batch headed by
`a<NUL>` aborts with no result. -/
theorem processAll_nul_aborts_witness :
    processAll cliPlain fsOnlyC
      [(['a', Char.ofNat 0], Except.ok ()), (['c'], Except.ok ())] =
      none :=
  processAll_nul_aborts cliPlain fsOnlyC ['a', Char.ofNat 0] (Except.ok ())
    [(['c'], Except.ok ())] (by decide)

end Blutils
